import Mathlib

/-!
Verification development for the psychopath renderer's spatial-query and
importance-sampling core.  Rust sources are shallowly embedded: slices
become `List`s with explicit index arithmetic, `f32` quantities that only
matter up to ordering become `ℚ`, fallible code returns `Option`/`Except`,
and mutable state is passed explicitly.
-/

namespace Psychopath

/-! ## bvh_order: `SplitAxes` and `calc_traversal_code`
(src/sub_crates/bvh_order/src/lib.rs)

The axis fields are `u8` in the source; they are modelled as `ℕ`.  For the
axis values 0, 1, 2 the `u8` arithmetic in `calc_traversal_code` cannot
wrap (the largest code is 47), so `ℕ` arithmetic is faithful on the inputs
the claims quantify over. -/

inductive SplitAxes where
  | Full : ℕ → ℕ → ℕ → SplitAxes -- top, left, right
  | Left : ℕ → ℕ → SplitAxes -- top, left
  | Right : ℕ → ℕ → SplitAxes -- top, right
  | TopOnly : ℕ → SplitAxes -- top
deriving DecidableEq

/-- Embeds `calc_traversal_code` from src/sub_crates/bvh_order/src/lib.rs. -/
def calc_traversal_code : SplitAxes → ℕ
  | SplitAxes.Full top left right => top + (left * 3) + (right * 9)
  | SplitAxes.Left top left => top + (left * 3) + 27
  | SplitAxes.Right top right => top + (right * 3) + (27 + 9)
  | SplitAxes.TopOnly top => top + (27 + 9 + 9)

/-- All axis fields are in {0, 1, 2} (x = 0, y = 1, z = 2). -/
def SplitAxes.validAxes : SplitAxes → Prop
  | SplitAxes.Full top left right => top < 3 ∧ left < 3 ∧ right < 3
  | SplitAxes.Left top left => top < 3 ∧ left < 3
  | SplitAxes.Right top right => top < 3 ∧ right < 3
  | SplitAxes.TopOnly top => top < 3

instance (s : SplitAxes) : Decidable s.validAxes := by
  cases s <;> (simp only [SplitAxes.validAxes]; infer_instance)

/-! ## TriangleMesh (src/src/surface/triangle_mesh.rs)

`TriangleMesh::from_triangles` asserts `triangles.len() % time_samples == 0`
(and Rust `%` itself panics when `time_samples == 0`), then builds
`indices = (0..len/time_samples).map(|n| n * time_samples)`.  The
subsequent `BVH::from_objects` call permutes `indices` in place and does
not change its length, so the index-array length is decided here.  The
triangle payload is irrelevant to the claim, so the element type is a
type parameter. -/

/-- Modelled from the spec: `BVH::from_objects` (the file src/bvh.rs is
not under src/; only this caller is).  Spec §4.3: the BVH builder "fails
with a precondition violation on an empty object set"; otherwise it only
reorders `indices` in place (§4.1-4.3), preserving the length.  The
reordering itself is irrelevant to the claims about `from_triangles`, so
the model returns the index list unchanged past the non-empty check. -/
def bvhFromObjectsCheck (indices : List ℕ) : Option (List ℕ) :=
  if indices = [] then none else some indices

def from_triangles {T : Type} (time_samples : ℕ) (triangles : List T) :
    Option (List ℕ) :=
  if time_samples = 0 then
    none -- Rust `%` by zero panics
  else if triangles.length % time_samples = 0 then
    bvhFromObjectsCheck
      ((List.range (triangles.length / time_samples)).map
        (fun n => n * time_samples))
  else
    none -- `assert!(triangles.len() % time_samples == 0)` fails

/-! ## TriangleMesh::intersect_rays, per-ray callback body
(src/src/surface/triangle_mesh.rs:61-99)

During traversal, the leaf callback runs the body below once per
(triangle, ray) combination presented to it.  `triangle::intersect_ray`
is external; its result is abstracted as `Option ℚ` (the hit distance
`t`, with `f32` modelled as `ℚ`: the body only compares and copies it;
a NaN `t` fails `t < max_t` just as the model's `none` leaves the ray
unchanged).  A single call to `intersect_rays` subjects each ray to a
finite sequence of such candidate results. -/

structure AccelRayM where
  max_t : ℚ
  occlusion : Bool -- `is_occlusion()`
  done : Bool -- set by `mark_done()`
deriving DecidableEq

inductive SurfaceIsectM where
  | Miss : SurfaceIsectM
  | Occlude : SurfaceIsectM
  | Hit : ℚ → SurfaceIsectM
deriving DecidableEq

/-- One iteration of the `for r in rs` loop body in
`TriangleMesh::intersect_rays`: the state is the ray plus its
`isects[r.id]` slot, `res` the result of `triangle::intersect_ray`. -/
def triCallbackStep (s : AccelRayM × SurfaceIsectM) (res : Option ℚ) :
    AccelRayM × SurfaceIsectM :=
  match res with
  | none => s
  | some t =>
    if t < s.1.max_t then
      if s.1.occlusion then
        ({ s.1 with done := true }, SurfaceIsectM.Occlude)
      else
        ({ s.1 with max_t := t }, SurfaceIsectM.Hit t)
    else
      s

/-- The cumulative effect of one `intersect_rays` call on one ray: a fold
of `triCallbackStep` over every candidate intersection result the
traversal presents for that ray. -/
def intersectRaysRay (s : AccelRayM × SurfaceIsectM) (results : List (Option ℚ)) :
    AccelRayM × SurfaceIsectM :=
  results.foldl triCallbackStep s

/-! ## Surface closures (src/src/shading/surface_closure.rs)

`EmitClosure::estimate_eval_over_solid_angle` is `unimplemented!()`: it
panics unconditionally (the body is `// TODO: what to do here?` followed
by the macro).  Panics are modelled as `Except.error`.  The vector inputs
are irrelevant to the behaviour and modelled as an opaque parameter. -/

structure Vec3M where
  x : ℚ
  y : ℚ
  z : ℚ
deriving DecidableEq

/-- Embeds `EmitClosure::estimate_eval_over_solid_angle`
(src/src/shading/surface_closure.rs:206-217): the body is
`unimplemented!()`, which panics for every input. -/
def emitEstimateEvalOverSolidAngle (inc out nor : Vec3M) (cos_theta : ℚ) :
    Except String ℚ :=
  let _ := (inc, out, nor, cos_theta) -- Not using these (matches the source)
  Except.error "not implemented"

/-! ## Partitioner (src/src/algorithm.rs)

`partition` and `partition_pair` run a two-pointer forward/backward scan
over a mutable slice using raw pointers.  The embedding uses a `List`
with the pointer offsets `a` (forward) and `b` (backward) as explicit
indices: `a == b` pointer-equality returns become index-equality tests,
`*a`/`*b` reads become `List.get`, writes through the `&mut` references
passed to the predicate become `List.set`, and `std::ptr::swap` becomes
`listSwap`.  Rust's `FnMut(&mut T) -> bool` predicate is modelled as
`α → α × Bool` (new element value, test result).  Each embedded loop
additionally returns a log of the arguments handed to the predicate, in
call order, so that "the predicate runs exactly once per element" is a
statement about the log. -/

/-- Swap the elements at positions `i` and `j` (models `std::ptr::swap`
on two in-bounds slice pointers; the out-of-bounds branch is never
reached by the callers below). -/
def listSwap {γ : Type} (l : List γ) (i j : ℕ) : List γ :=
  if h : i < l.length ∧ j < l.length then
    (l.set i (l.get ⟨j, h.2⟩)).set j (l.get ⟨i, h.1⟩)
  else l

mutual

/-- The outer loop of `partition` entered at its forward scan
(src/src/algorithm.rs:23-32): test at `a` while the predicate holds,
return `a` when the pointers meet (`a == b` becomes `¬ a < b`, the same
test on the reachable states where `a ≤ b`).  The default `d` totalizes
the out-of-range read, which never happens when the scan starts at
`0..l.length`. -/
def partGo {α : Type} (f : α → α × Bool) (d : α) (l : List α) (a b : ℕ) :
    ℕ × List α × List α :=
  if h : a < b then
    let x := l.getD a d
    let p := f x
    if p.2 then
      let r := partGo f d (l.set a p.1) (a + 1) b
      (r.1, r.2.1, x :: r.2.2)
    else
      let r := partBack f d (l.set a p.1) a b
      (r.1, r.2.1, x :: r.2.2)
  else (a, l, [])
  termination_by 2 * (b - a) + 1
  decreasing_by
    all_goals omega

/-- The backward scan of `partition` (src/src/algorithm.rs:34-46):
decrement `b`, return `a` when the pointers meet, otherwise test at the
new `b`; on a positive test swap `a`/`b`, advance `a`, and resume the
forward scan. -/
def partBack {α : Type} (f : α → α × Bool) (d : α) (l : List α) (a b : ℕ) :
    ℕ × List α × List α :=
  if h : a + 1 < b then
    let x := l.getD (b - 1) d
    let p := f x
    if p.2 then
      let r := partGo f d (listSwap (l.set (b - 1) p.1) a (b - 1)) (a + 1) (b - 1)
      (r.1, r.2.1, x :: r.2.2)
    else
      let r := partBack f d (l.set (b - 1) p.1) a (b - 1)
      (r.1, r.2.1, x :: r.2.2)
  else (a, l, [])
  termination_by 2 * (b - a)
  decreasing_by
    all_goals omega

end

/-- Embeds `partition` (src/src/algorithm.rs:13-49).  Returns the split
index, the reordered list, and the log of predicate arguments. -/
def partition {α : Type} (f : α → α × Bool) (d : α) (l : List α) :
    ℕ × List α × List α :=
  partGo f d l 0 l.length

mutual

/-- Forward scan of `partition_pair` (src/src/algorithm.rs:79-91).  The
pointer pairs `a1`/`a2` and `b1`/`b2` of the source always hold the same
offset, modelled by the single indices `a` and `b`; the index handed to
the predicate is the tested pointer's offset
(`((a1 as usize) - start) / size_of::<A>()`). -/
def partPairGo {α β : Type} (f : ℕ → α → β → α × β × Bool) (d1 : α) (d2 : β)
    (l1 : List α) (l2 : List β) (a b : ℕ) :
    ℕ × List α × List β × List (ℕ × α × β) :=
  if h : a < b then
    let x := l1.getD a d1
    let y := l2.getD a d2
    let p := f a x y
    if p.2.2 then
      let r := partPairGo f d1 d2 (l1.set a p.1) (l2.set a p.2.1) (a + 1) b
      (r.1, r.2.1, r.2.2.1, (a, x, y) :: r.2.2.2)
    else
      let r := partPairBack f d1 d2 (l1.set a p.1) (l2.set a p.2.1) a b
      (r.1, r.2.1, r.2.2.1, (a, x, y) :: r.2.2.2)
  else (a, l1, l2, [])
  termination_by 2 * (b - a) + 1
  decreasing_by
    all_goals omega

/-- Backward scan of `partition_pair` (src/src/algorithm.rs:93-111):
both `b` pointers are decremented together, the element pair at the new
offset is tested, and a positive test swaps in both slices at once. -/
def partPairBack {α β : Type} (f : ℕ → α → β → α × β × Bool) (d1 : α) (d2 : β)
    (l1 : List α) (l2 : List β) (a b : ℕ) :
    ℕ × List α × List β × List (ℕ × α × β) :=
  if h : a + 1 < b then
    let x := l1.getD (b - 1) d1
    let y := l2.getD (b - 1) d2
    let p := f (b - 1) x y
    if p.2.2 then
      let r := partPairGo f d1 d2
        (listSwap (l1.set (b - 1) p.1) a (b - 1))
        (listSwap (l2.set (b - 1) p.2.1) a (b - 1)) (a + 1) (b - 1)
      (r.1, r.2.1, r.2.2.1, (b - 1, x, y) :: r.2.2.2)
    else
      let r := partPairBack f d1 d2 (l1.set (b - 1) p.1) (l2.set (b - 1) p.2.1)
        a (b - 1)
      (r.1, r.2.1, r.2.2.1, (b - 1, x, y) :: r.2.2.2)
  else (a, l1, l2, [])
  termination_by 2 * (b - a)
  decreasing_by
    all_goals omega

end

/-- Embeds `partition_pair` (src/src/algorithm.rs:65-113).  The
`assert!(slc1.len() == slc2.len())` precondition violation is modelled
as `none`: when the lengths differ the function fails before testing any
element or touching either slice. -/
def partition_pair {α β : Type} (f : ℕ → α → β → α × β × Bool) (d1 : α)
    (d2 : β) (l1 : List α) (l2 : List β) :
    Option (ℕ × List α × List β × List (ℕ × α × β)) :=
  if l1.length = l2.length then some (partPairGo f d1 d2 l1 l2 0 l1.length)
  else none

/-- The window `[a, b)` of a list, element by element (used to relate a
scan's predicate log to the segment it walked). -/
def regionMap {γ : Type} (l : List γ) (a b : ℕ) (d : γ) : List γ :=
  (List.range (b - a)).map (fun t => l.getD (a + t) d)

/-- Replay a list of swaps (used to state that `partition_pair` applies
one common rearrangement to both slices). -/
def applySwaps {γ : Type} : List (ℕ × ℕ) → List γ → List γ
  | [], l => l
  | e :: s, l => applySwaps s (listSwap l e.1 e.2)

/-- The permutation of indices realized by a list of swaps, outermost
swap applied last. -/
def swapsEquiv : List (ℕ × ℕ) → Equiv.Perm ℕ
  | [] => Equiv.refl ℕ
  | e :: s => (swapsEquiv s).trans (Equiv.swap e.1 e.2)

/-! ## LightAccel: LightArray and LightTree (modelled from the spec)

Only the `LightAccel` trait (src/src/accel/mod.rs:24-38) is under src/;
the implementing files `light_array.rs` and `light_tree.rs` are not.
The definitions below are therefore modelled from spec §4.5.  The shading
inputs (directions, position, normals, closure, time) enter `select` only
through each light's importance weight, so the models take the already
combined non-negative weights directly. -/

/-- Modelled from the spec: the linear scan inside `LightArray::select`
(src/src/accel/light_array.rs is missing from src/).  "LightArray
implements the same contract by linear weighted selection over a flat
list": walk the weights subtracting, choosing the first light whose
weight exceeds what remains of the scaled random scalar. -/
def lightArraySelectGo (total : ℚ) : List ℚ → ℕ → ℚ → Option (ℕ × ℚ × ℚ)
  | [], _, _ => none
  | w :: rest, i, x =>
    if x < w then some (i, w / total, x / w)
    else lightArraySelectGo total rest (i + 1) (x - w)

/-- Modelled from the spec: `LightArray::select`.  Degenerate data is
handled by policy: a zero aggregate weight yields `None`. -/
def lightArraySelect (ws : List ℚ) (n : ℚ) : Option (ℕ × ℚ × ℚ) :=
  if ws.sum = 0 then none else lightArraySelectGo ws.sum ws 0 (n * ws.sum)

/-- Modelled from the spec: `LightArray::approximate_energy`, the
aggregate of the individual estimates. -/
def lightArrayApproximateEnergy (ws : List ℚ) : ℚ := ws.sum

/-- Modelled from the spec: the `LightTree` node hierarchy
(src/src/accel/light_tree.rs is missing from src/).  Each leaf carries
one light's importance weight; an internal node's weight is derived from
its children (non-zero-preserving upper estimate, spec §3). -/
inductive LightTreeM where
  | leaf : ℚ → LightTreeM
  | node : LightTreeM → LightTreeM → LightTreeM
deriving DecidableEq

def LightTreeM.energy : LightTreeM → ℚ
  | LightTreeM.leaf w => w
  | LightTreeM.node l r => l.energy + r.energy

def LightTreeM.leafCount : LightTreeM → ℕ
  | LightTreeM.leaf _ => 1
  | LightTreeM.node l r => l.leafCount + r.leafCount

/-- All leaf weights are non-negative. -/
def LightTreeM.nonnegWeights : LightTreeM → Prop
  | LightTreeM.leaf w => 0 ≤ w
  | LightTreeM.node l r => l.nonnegWeights ∧ r.nonnegWeights

/-- All leaf weights are exactly zero. -/
def LightTreeM.allZero : LightTreeM → Prop
  | LightTreeM.leaf w => w = 0
  | LightTreeM.node l r => l.allZero ∧ r.allZero

/-- Modelled from the spec: the stochastic descent of
`LightTree::select` — normalize the two children's weights into
probabilities, descend on the random scalar with residual rescaling,
multiply branch probabilities into the pdf; `None` when the weights at
the current node are all zero. -/
def lightTreeSelectGo : LightTreeM → ℚ → Option (ℕ × ℚ × ℚ)
  | LightTreeM.leaf w, n => if w = 0 then none else some (0, 1, n)
  | LightTreeM.node l r, n =>
    let wl := l.energy
    let wr := r.energy
    if wl + wr = 0 then none
    else
      let p := wl / (wl + wr)
      if n < p then
        (lightTreeSelectGo l (n / p)).map (fun s => (s.1, p * s.2.1, s.2.2))
      else
        (lightTreeSelectGo r ((n - p) / (1 - p))).map
          (fun s => (l.leafCount + s.1, (1 - p) * s.2.1, s.2.2))

/-- Modelled from the spec: `LightTree::select` for a tree holding zero
lights (`none`) or at least one light (`some t`). -/
def lightTreeSelect : Option LightTreeM → ℚ → Option (ℕ × ℚ × ℚ)
  | none, _ => none
  | some t, n => lightTreeSelectGo t n

/-- Modelled from the spec: `LightTree::approximate_energy`: 0 for an
empty tree, the root estimate otherwise. -/
def lightTreeApproximateEnergy : Option LightTreeM → ℚ
  | none => 0
  | some t => t.energy

end Psychopath

namespace Psychopath

/-! ### List index helper lemmas -/

lemma getD_set_self {γ : Type} (l : List γ) (i : ℕ) (x d : γ)
    (h : i < l.length) : (l.set i x).getD i d = x := by
  simp [List.getD_eq_getElem?_getD, List.getElem?_set, h]

lemma getD_set_ne {γ : Type} (l : List γ) (i k : ℕ) (x d : γ)
    (h : i ≠ k) : (l.set i x).getD k d = l.getD k d := by
  simp [List.getD_eq_getElem?_getD, List.getElem?_set, h]

lemma getD_eq_get {γ : Type} (l : List γ) (i : ℕ) (h : i < l.length)
    (d : γ) : l.getD i d = l.get ⟨i, h⟩ := by
  simp [List.getD_eq_getElem?_getD, List.getElem?_eq_getElem h]

lemma listSwap_length {γ : Type} (l : List γ) (i j : ℕ) :
    (listSwap l i j).length = l.length := by
  unfold listSwap
  split <;> simp

lemma listSwap_getD_fst {γ : Type} (l : List γ) (i j : ℕ) (d : γ)
    (hi : i < l.length) (hj : j < l.length) :
    (listSwap l i j).getD i d = l.getD j d := by
  unfold listSwap
  rw [dif_pos ⟨hi, hj⟩]
  by_cases hij : i = j
  · subst hij
    rw [getD_set_self _ _ _ _ (by simpa using hi)]
    exact (getD_eq_get l i hi d).symm
  · rw [getD_set_ne _ _ _ _ _ (fun he => hij he.symm),
      getD_set_self _ _ _ _ hi]
    exact (getD_eq_get l j hj d).symm

lemma listSwap_getD_snd {γ : Type} (l : List γ) (i j : ℕ) (d : γ)
    (hi : i < l.length) (hj : j < l.length) :
    (listSwap l i j).getD j d = l.getD i d := by
  unfold listSwap
  rw [dif_pos ⟨hi, hj⟩, getD_set_self _ _ _ _ (by simpa using hj)]
  exact (getD_eq_get l i hi d).symm

lemma listSwap_getD_other {γ : Type} (l : List γ) (i j k : ℕ) (d : γ)
    (h1 : k ≠ i) (h2 : k ≠ j) :
    (listSwap l i j).getD k d = l.getD k d := by
  unfold listSwap
  split
  · rw [getD_set_ne _ _ _ _ _ (Ne.symm h2), getD_set_ne _ _ _ _ _ (Ne.symm h1)]
  · rfl

/-! ### `regionMap` lemmas -/

lemma regionMap_empty {γ : Type} (l : List γ) (a b : ℕ) (d : γ)
    (h : b ≤ a) : regionMap l a b d = [] := by
  unfold regionMap
  rw [show b - a = 0 by omega]
  rfl

lemma regionMap_cons {γ : Type} (l : List γ) (a b : ℕ) (d : γ)
    (h : a < b) :
    regionMap l a b d = l.getD a d :: regionMap l (a + 1) b d := by
  unfold regionMap
  rw [show b - a = (b - (a + 1)) + 1 by omega, List.range_succ_eq_map,
    List.map_cons, List.map_map]
  refine congrArg₂ _ (by rw [Nat.add_zero]) ?_
  apply List.map_congr_left
  intro t _
  simp only [Function.comp_apply]
  congr 1
  omega

lemma regionMap_snoc {γ : Type} (l : List γ) (a b : ℕ) (d : γ)
    (h : a < b) :
    regionMap l a b d = regionMap l a (b - 1) d ++ [l.getD (b - 1) d] := by
  unfold regionMap
  rw [show b - a = (b - 1 - a) + 1 by omega, List.range_succ, List.map_append]
  refine congrArg₂ _ rfl ?_
  simp only [List.map_cons, List.map_nil]
  rw [show a + (b - 1 - a) = b - 1 by omega]

lemma regionMap_set_outside {γ : Type} (l : List γ) (a b k : ℕ) (x d : γ)
    (h : k < a ∨ b ≤ k) :
    regionMap (l.set k x) a b d = regionMap l a b d := by
  unfold regionMap
  apply List.map_congr_left
  intro t ht
  rw [List.mem_range] at ht
  exact getD_set_ne _ _ _ _ _ (by omega)

lemma regionMap_swap_outside {γ : Type} (l : List γ) (a b i j : ℕ) (d : γ)
    (hi : i < a ∨ b ≤ i) (hj : j < a ∨ b ≤ j) :
    regionMap (listSwap l i j) a b d = regionMap l a b d := by
  unfold regionMap
  apply List.map_congr_left
  intro t ht
  rw [List.mem_range] at ht
  exact listSwap_getD_other _ _ _ _ _ (by omega) (by omega)

lemma regionMap_full {γ : Type} (l : List γ) (d : γ) :
    regionMap l 0 l.length d = l := by
  induction l with
  | nil => rfl
  | cons x xs ih =>
    rw [regionMap_cons _ _ _ _ (by simp)]
    refine congrArg₂ _ rfl ?_
    have step : regionMap (x :: xs) 1 (x :: xs).length d =
        regionMap xs 0 xs.length d := by
      unfold regionMap
      simp only [List.length_cons, Nat.add_sub_cancel, Nat.sub_zero]
      apply List.map_congr_left
      intro t _
      rw [show 1 + t = t + 1 by omega, List.getD_cons_succ, Nat.zero_add]
    rw [Nat.zero_add, step, ih]

/-! ### Unfolding equations for the partition scans -/

lemma partGo_stop {α : Type} (f : α → α × Bool) (d : α) (l : List α)
    (a b : ℕ) (h : ¬ a < b) : partGo f d l a b = (a, l, []) := by
  rw [partGo, dif_neg h]

lemma partGo_true {α : Type} (f : α → α × Bool) (d : α) (l : List α)
    (a b : ℕ) (h : a < b) (ht : (f (l.getD a d)).2 = true) :
    partGo f d l a b =
      ((partGo f d (l.set a (f (l.getD a d)).1) (a + 1) b).1,
       (partGo f d (l.set a (f (l.getD a d)).1) (a + 1) b).2.1,
       l.getD a d :: (partGo f d (l.set a (f (l.getD a d)).1) (a + 1) b).2.2) := by
  rw [partGo, dif_pos h]
  simp only [ht, if_true]

lemma partGo_false {α : Type} (f : α → α × Bool) (d : α) (l : List α)
    (a b : ℕ) (h : a < b) (ht : (f (l.getD a d)).2 = false) :
    partGo f d l a b =
      ((partBack f d (l.set a (f (l.getD a d)).1) a b).1,
       (partBack f d (l.set a (f (l.getD a d)).1) a b).2.1,
       l.getD a d :: (partBack f d (l.set a (f (l.getD a d)).1) a b).2.2) := by
  rw [partGo, dif_pos h]
  simp only [ht, Bool.false_eq_true, if_false]

lemma partBack_stop {α : Type} (f : α → α × Bool) (d : α) (l : List α)
    (a b : ℕ) (h : ¬ a + 1 < b) : partBack f d l a b = (a, l, []) := by
  rw [partBack, dif_neg h]

lemma partBack_true {α : Type} (f : α → α × Bool) (d : α) (l : List α)
    (a b : ℕ) (h : a + 1 < b) (ht : (f (l.getD (b - 1) d)).2 = true) :
    partBack f d l a b =
      ((partGo f d (listSwap (l.set (b - 1) (f (l.getD (b - 1) d)).1) a (b - 1))
          (a + 1) (b - 1)).1,
       (partGo f d (listSwap (l.set (b - 1) (f (l.getD (b - 1) d)).1) a (b - 1))
          (a + 1) (b - 1)).2.1,
       l.getD (b - 1) d ::
        (partGo f d (listSwap (l.set (b - 1) (f (l.getD (b - 1) d)).1) a (b - 1))
          (a + 1) (b - 1)).2.2) := by
  rw [partBack, dif_pos h]
  simp only [ht, if_true]

lemma partBack_false {α : Type} (f : α → α × Bool) (d : α) (l : List α)
    (a b : ℕ) (h : a + 1 < b) (ht : (f (l.getD (b - 1) d)).2 = false) :
    partBack f d l a b =
      ((partBack f d (l.set (b - 1) (f (l.getD (b - 1) d)).1) a (b - 1)).1,
       (partBack f d (l.set (b - 1) (f (l.getD (b - 1) d)).1) a (b - 1)).2.1,
       l.getD (b - 1) d ::
        (partBack f d (l.set (b - 1) (f (l.getD (b - 1) d)).1) a (b - 1)).2.2) := by
  rw [partBack, dif_pos h]
  simp only [ht, Bool.false_eq_true, if_false]

/-! ### Master invariant for the `partition` scan

Proved by induction on the combined loop measure (`2*(b-a)` plus a bit
for the phase).  For a forward scan started at `[a, b)` inside a list of
length ≥ b: the returned index stays in `[a, b]`, the list keeps its
length, positions outside `[a, b)` are untouched, every final position
before (resp. at-or-after) the returned index holds the output of a
positive (resp. negative) test of some original element of the window,
and the log of predicate inputs is a permutation of the window.  The
backward-scan variant additionally accounts for the pending tested-false
element at position `a`, whose input was logged by the caller. -/
theorem partScan_spec {α : Type} (f : α → α × Bool) (d : α) :
    ∀ N : ℕ,
      (∀ (l : List α) (a b : ℕ), 2 * (b - a) + 1 ≤ N → a ≤ b → b ≤ l.length →
        (a ≤ (partGo f d l a b).1 ∧ (partGo f d l a b).1 ≤ b) ∧
        (partGo f d l a b).2.1.length = l.length ∧
        (∀ k, k < a ∨ b ≤ k → (partGo f d l a b).2.1.getD k d = l.getD k d) ∧
        (∀ k, a ≤ k → k < (partGo f d l a b).1 → ∃ j, a ≤ j ∧ j < b ∧
          (partGo f d l a b).2.1.getD k d = (f (l.getD j d)).1 ∧
          (f (l.getD j d)).2 = true) ∧
        (∀ k, (partGo f d l a b).1 ≤ k → k < b → ∃ j, a ≤ j ∧ j < b ∧
          (partGo f d l a b).2.1.getD k d = (f (l.getD j d)).1 ∧
          (f (l.getD j d)).2 = false) ∧
        (partGo f d l a b).2.2.Perm (regionMap l a b d)) ∧
      (∀ (l : List α) (a b : ℕ), 2 * (b - a) ≤ N → a < b → b ≤ l.length →
        (a ≤ (partBack f d l a b).1 ∧ (partBack f d l a b).1 < b) ∧
        (partBack f d l a b).2.1.length = l.length ∧
        (∀ k, k < a ∨ b ≤ k → (partBack f d l a b).2.1.getD k d = l.getD k d) ∧
        (∀ k, a ≤ k → k < (partBack f d l a b).1 → ∃ j, a + 1 ≤ j ∧ j < b ∧
          (partBack f d l a b).2.1.getD k d = (f (l.getD j d)).1 ∧
          (f (l.getD j d)).2 = true) ∧
        (∀ k, (partBack f d l a b).1 ≤ k → k < b →
          ((partBack f d l a b).2.1.getD k d = l.getD a d ∨
            ∃ j, a + 1 ≤ j ∧ j < b ∧
              (partBack f d l a b).2.1.getD k d = (f (l.getD j d)).1 ∧
              (f (l.getD j d)).2 = false)) ∧
        (partBack f d l a b).2.2.Perm (regionMap l (a + 1) b d)) := by
  intro N
  induction N with
  | zero =>
    constructor
    · intro l a b hN
      exact absurd hN (by omega)
    · intro l a b hN hab
      exact absurd hN (by omega)
  | succ N ih =>
    obtain ⟨ihGo, ihBack⟩ := ih
    constructor
    · -- forward scan
      intro l a b hN hab hbl
      by_cases hlt : a < b
      · by_cases ht : (f (l.getD a d)).2 = true
        · -- positive test at `a`: advance
          rw [partGo_true f d l a b hlt ht]
          dsimp only
          obtain ⟨⟨hr1a, hr1b⟩, hr2, hr3, hr4, hr5, hr6⟩ :=
            ihGo (l.set a (f (l.getD a d)).1) (a + 1) b (by omega) (by omega)
              (by rw [List.length_set]; exact hbl)
          refine ⟨⟨by omega, hr1b⟩, by rw [hr2, List.length_set], ?_, ?_, ?_, ?_⟩
          · intro k hk
            rw [hr3 k (by omega)]
            exact getD_set_ne _ _ _ _ _ (by omega)
          · intro k hka hki
            by_cases hk : k = a
            · subst hk
              refine ⟨k, le_refl k, hlt, ?_, ht⟩
              rw [hr3 k (Or.inl (by omega))]
              exact getD_set_self _ _ _ _ (by omega)
            · obtain ⟨j, hj1, hj2, hj3, hj4⟩ := hr4 k (by omega) hki
              have hset : (l.set a (f (l.getD a d)).1).getD j d = l.getD j d :=
                getD_set_ne _ _ _ _ _ (by omega)
              rw [hset] at hj3 hj4
              exact ⟨j, by omega, hj2, hj3, hj4⟩
          · intro k hki hkb
            obtain ⟨j, hj1, hj2, hj3, hj4⟩ := hr5 k hki hkb
            have hset : (l.set a (f (l.getD a d)).1).getD j d = l.getD j d :=
              getD_set_ne _ _ _ _ _ (by omega)
            rw [hset] at hj3 hj4
            exact ⟨j, by omega, hj2, hj3, hj4⟩
          · rw [regionMap_cons l a b d hlt]
            have hreg : regionMap (l.set a (f (l.getD a d)).1) (a + 1) b d =
                regionMap l (a + 1) b d :=
              regionMap_set_outside _ _ _ _ _ _ (Or.inl (by omega))
            rw [hreg] at hr6
            exact List.Perm.cons _ hr6
        · -- negative test at `a`: switch to the backward scan
          have htf : (f (l.getD a d)).2 = false := by
            revert ht
            cases (f (l.getD a d)).2 <;> simp
          rw [partGo_false f d l a b hlt htf]
          dsimp only
          obtain ⟨⟨hr1a, hr1b⟩, hr2, hr3, hr4, hr5, hr6⟩ :=
            ihBack (l.set a (f (l.getD a d)).1) a b (by omega) hlt
              (by rw [List.length_set]; exact hbl)
          refine ⟨⟨hr1a, by omega⟩, by rw [hr2, List.length_set], ?_, ?_, ?_, ?_⟩
          · intro k hk
            rw [hr3 k hk]
            exact getD_set_ne _ _ _ _ _ (by omega)
          · intro k hka hki
            obtain ⟨j, hj1, hj2, hj3, hj4⟩ := hr4 k hka hki
            have hset : (l.set a (f (l.getD a d)).1).getD j d = l.getD j d :=
              getD_set_ne _ _ _ _ _ (by omega)
            rw [hset] at hj3 hj4
            exact ⟨j, by omega, hj2, hj3, hj4⟩
          · intro k hki hkb
            rcases hr5 k hki hkb with hc | ⟨j, hj1, hj2, hj3, hj4⟩
            · refine ⟨a, le_refl a, hlt, ?_, htf⟩
              rw [hc]
              exact getD_set_self _ _ _ _ (by omega)
            · have hset : (l.set a (f (l.getD a d)).1).getD j d = l.getD j d :=
                getD_set_ne _ _ _ _ _ (by omega)
              rw [hset] at hj3 hj4
              exact ⟨j, by omega, hj2, hj3, hj4⟩
          · rw [regionMap_cons l a b d hlt]
            have hreg : regionMap (l.set a (f (l.getD a d)).1) (a + 1) b d =
                regionMap l (a + 1) b d :=
              regionMap_set_outside _ _ _ _ _ _ (Or.inl (by omega))
            rw [hreg] at hr6
            exact List.Perm.cons _ hr6
      · -- pointers met: a = b
        rw [partGo_stop f d l a b hlt]
        dsimp only
        refine ⟨⟨le_refl a, by omega⟩, rfl, fun k _ => rfl, ?_, ?_, ?_⟩
        · intro k hka hki
          exact absurd hki (by omega)
        · intro k hki hkb
          exact absurd hkb (by omega)
        · rw [regionMap_empty l a b d (by omega)]
    · -- backward scan
      intro l a b hN hab hbl
      by_cases hlt : a + 1 < b
      · by_cases ht : (f (l.getD (b - 1) d)).2 = true
        · -- positive test at `b-1`: swap with `a` and resume forward
          rw [partBack_true f d l a b hlt ht]
          dsimp only
          have hswlen :
              (listSwap (l.set (b - 1) (f (l.getD (b - 1) d)).1) a (b - 1)).length =
                l.length := by
            rw [listSwap_length, List.length_set]
          obtain ⟨⟨hr1a, hr1b⟩, hr2, hr3, hr4, hr5, hr6⟩ :=
            ihGo (listSwap (l.set (b - 1) (f (l.getD (b - 1) d)).1) a (b - 1))
              (a + 1) (b - 1) (by omega) (by omega) (by rw [hswlen]; omega)
          have hgetOther : ∀ j, j ≠ a → j ≠ b - 1 →
              (listSwap (l.set (b - 1) (f (l.getD (b - 1) d)).1) a (b - 1)).getD j d =
                l.getD j d := by
            intro j hja hjb
            rw [listSwap_getD_other _ _ _ _ _ hja hjb]
            exact getD_set_ne _ _ _ _ _ (Ne.symm hjb)
          refine ⟨⟨by omega, by omega⟩, by rw [hr2, hswlen], ?_, ?_, ?_, ?_⟩
          · intro k hk
            rw [hr3 k (by omega)]
            exact hgetOther k (by omega) (by omega)
          · intro k hka hki
            by_cases hk : k = a
            · subst hk
              refine ⟨b - 1, by omega, by omega, ?_, ht⟩
              rw [hr3 k (Or.inl (by omega)),
                listSwap_getD_fst _ _ _ _ (by rw [List.length_set]; omega)
                  (by rw [List.length_set]; omega)]
              exact getD_set_self _ _ _ _ (by omega)
            · obtain ⟨j, hj1, hj2, hj3, hj4⟩ := hr4 k (by omega) hki
              rw [hgetOther j (by omega) (by omega)] at hj3 hj4
              exact ⟨j, by omega, by omega, hj3, hj4⟩
          · intro k hki hkb
            by_cases hk : k = b - 1
            · subst hk
              left
              rw [hr3 (b - 1) (Or.inr (by omega)),
                listSwap_getD_snd _ _ _ _ (by rw [List.length_set]; omega)
                  (by rw [List.length_set]; omega)]
              exact getD_set_ne _ _ _ _ _ (by omega)
            · obtain ⟨j, hj1, hj2, hj3, hj4⟩ := hr5 k hki (by omega)
              rw [hgetOther j (by omega) (by omega)] at hj3 hj4
              exact Or.inr ⟨j, by omega, by omega, hj3, hj4⟩
          · rw [regionMap_snoc l (a + 1) b d (by omega)]
            have hreg :
                regionMap (listSwap (l.set (b - 1) (f (l.getD (b - 1) d)).1) a
                    (b - 1)) (a + 1) (b - 1) d =
                  regionMap l (a + 1) (b - 1) d := by
              rw [regionMap_swap_outside _ _ _ _ _ _ (Or.inl (by omega))
                  (Or.inr (by omega)),
                regionMap_set_outside _ _ _ _ _ _ (Or.inr (by omega))]
            rw [hreg] at hr6
            exact (List.Perm.cons _ hr6).trans (List.perm_append_singleton _ _).symm
        · -- negative test at `b-1`: keep scanning backward
          have htf : (f (l.getD (b - 1) d)).2 = false := by
            revert ht
            cases (f (l.getD (b - 1) d)).2 <;> simp
          rw [partBack_false f d l a b hlt htf]
          dsimp only
          obtain ⟨⟨hr1a, hr1b⟩, hr2, hr3, hr4, hr5, hr6⟩ :=
            ihBack (l.set (b - 1) (f (l.getD (b - 1) d)).1) a (b - 1)
              (by omega) (by omega) (by rw [List.length_set]; omega)
          refine ⟨⟨hr1a, by omega⟩, by rw [hr2, List.length_set], ?_, ?_, ?_, ?_⟩
          · intro k hk
            rw [hr3 k (by omega)]
            exact getD_set_ne _ _ _ _ _ (by omega)
          · intro k hka hki
            obtain ⟨j, hj1, hj2, hj3, hj4⟩ := hr4 k hka hki
            have hset : (l.set (b - 1) (f (l.getD (b - 1) d)).1).getD j d =
                l.getD j d := getD_set_ne _ _ _ _ _ (by omega)
            rw [hset] at hj3 hj4
            exact ⟨j, by omega, by omega, hj3, hj4⟩
          · intro k hki hkb
            by_cases hk : k = b - 1
            · subst hk
              refine Or.inr ⟨b - 1, by omega, by omega, ?_, htf⟩
              rw [hr3 (b - 1) (Or.inr (by omega))]
              exact getD_set_self _ _ _ _ (by omega)
            · rcases hr5 k hki (by omega) with hc | ⟨j, hj1, hj2, hj3, hj4⟩
              · left
                rw [hc]
                exact getD_set_ne _ _ _ _ _ (by omega)
              · have hset : (l.set (b - 1) (f (l.getD (b - 1) d)).1).getD j d =
                    l.getD j d := getD_set_ne _ _ _ _ _ (by omega)
                rw [hset] at hj3 hj4
                exact Or.inr ⟨j, by omega, by omega, hj3, hj4⟩
          · rw [regionMap_snoc l (a + 1) b d (by omega)]
            have hreg :
                regionMap (l.set (b - 1) (f (l.getD (b - 1) d)).1) (a + 1)
                    (b - 1) d = regionMap l (a + 1) (b - 1) d :=
              regionMap_set_outside _ _ _ _ _ _ (Or.inr (by omega))
            rw [hreg] at hr6
            exact (List.Perm.cons _ hr6).trans (List.perm_append_singleton _ _).symm
      · -- after the decrement the pointers meet: return without testing
        rw [partBack_stop f d l a b hlt]
        dsimp only
        refine ⟨⟨le_refl a, hab⟩, rfl, fun k _ => rfl, ?_, ?_, ?_⟩
        · intro k hka hki
          exact absurd hki (by omega)
        · intro k hki hkb
          left
          rw [show k = a by omega]
        · rw [regionMap_empty l (a + 1) b d (by omega)]

lemma set_getD_self {γ : Type} : ∀ (l : List γ) (i : ℕ) (d : γ),
    l.set i (l.getD i d) = l := by
  intro l
  induction l with
  | nil => intro i d; rfl
  | cons x xs ih =>
    intro i d
    cases i with
    | zero => rfl
    | succ n => simp only [List.set_cons_succ, List.getD_cons_succ, ih]

/-! ### Unfolding equations for the `partition_pair` scans -/

lemma partPairGo_stop {α β : Type} (f : ℕ → α → β → α × β × Bool) (d1 : α)
    (d2 : β) (l1 : List α) (l2 : List β) (a b : ℕ) (h : ¬ a < b) :
    partPairGo f d1 d2 l1 l2 a b = (a, l1, l2, []) := by
  rw [partPairGo, dif_neg h]

lemma partPairGo_true {α β : Type} (f : ℕ → α → β → α × β × Bool) (d1 : α)
    (d2 : β) (l1 : List α) (l2 : List β) (a b : ℕ) (h : a < b)
    (ht : (f a (l1.getD a d1) (l2.getD a d2)).2.2 = true) :
    partPairGo f d1 d2 l1 l2 a b =
      ((partPairGo f d1 d2 (l1.set a (f a (l1.getD a d1) (l2.getD a d2)).1)
          (l2.set a (f a (l1.getD a d1) (l2.getD a d2)).2.1) (a + 1) b).1,
       (partPairGo f d1 d2 (l1.set a (f a (l1.getD a d1) (l2.getD a d2)).1)
          (l2.set a (f a (l1.getD a d1) (l2.getD a d2)).2.1) (a + 1) b).2.1,
       (partPairGo f d1 d2 (l1.set a (f a (l1.getD a d1) (l2.getD a d2)).1)
          (l2.set a (f a (l1.getD a d1) (l2.getD a d2)).2.1) (a + 1) b).2.2.1,
       (a, l1.getD a d1, l2.getD a d2) ::
        (partPairGo f d1 d2 (l1.set a (f a (l1.getD a d1) (l2.getD a d2)).1)
          (l2.set a (f a (l1.getD a d1) (l2.getD a d2)).2.1) (a + 1) b).2.2.2) := by
  rw [partPairGo, dif_pos h]
  simp only [ht, if_true]

lemma partPairGo_false {α β : Type} (f : ℕ → α → β → α × β × Bool) (d1 : α)
    (d2 : β) (l1 : List α) (l2 : List β) (a b : ℕ) (h : a < b)
    (ht : (f a (l1.getD a d1) (l2.getD a d2)).2.2 = false) :
    partPairGo f d1 d2 l1 l2 a b =
      ((partPairBack f d1 d2 (l1.set a (f a (l1.getD a d1) (l2.getD a d2)).1)
          (l2.set a (f a (l1.getD a d1) (l2.getD a d2)).2.1) a b).1,
       (partPairBack f d1 d2 (l1.set a (f a (l1.getD a d1) (l2.getD a d2)).1)
          (l2.set a (f a (l1.getD a d1) (l2.getD a d2)).2.1) a b).2.1,
       (partPairBack f d1 d2 (l1.set a (f a (l1.getD a d1) (l2.getD a d2)).1)
          (l2.set a (f a (l1.getD a d1) (l2.getD a d2)).2.1) a b).2.2.1,
       (a, l1.getD a d1, l2.getD a d2) ::
        (partPairBack f d1 d2 (l1.set a (f a (l1.getD a d1) (l2.getD a d2)).1)
          (l2.set a (f a (l1.getD a d1) (l2.getD a d2)).2.1) a b).2.2.2) := by
  rw [partPairGo, dif_pos h]
  simp only [ht, Bool.false_eq_true, if_false]

lemma partPairBack_stop {α β : Type} (f : ℕ → α → β → α × β × Bool) (d1 : α)
    (d2 : β) (l1 : List α) (l2 : List β) (a b : ℕ) (h : ¬ a + 1 < b) :
    partPairBack f d1 d2 l1 l2 a b = (a, l1, l2, []) := by
  rw [partPairBack, dif_neg h]

lemma partPairBack_true {α β : Type} (f : ℕ → α → β → α × β × Bool) (d1 : α)
    (d2 : β) (l1 : List α) (l2 : List β) (a b : ℕ) (h : a + 1 < b)
    (ht : (f (b - 1) (l1.getD (b - 1) d1) (l2.getD (b - 1) d2)).2.2 = true) :
    partPairBack f d1 d2 l1 l2 a b =
      ((partPairGo f d1 d2
          (listSwap (l1.set (b - 1)
            (f (b - 1) (l1.getD (b - 1) d1) (l2.getD (b - 1) d2)).1) a (b - 1))
          (listSwap (l2.set (b - 1)
            (f (b - 1) (l1.getD (b - 1) d1) (l2.getD (b - 1) d2)).2.1) a (b - 1))
          (a + 1) (b - 1)).1,
       (partPairGo f d1 d2
          (listSwap (l1.set (b - 1)
            (f (b - 1) (l1.getD (b - 1) d1) (l2.getD (b - 1) d2)).1) a (b - 1))
          (listSwap (l2.set (b - 1)
            (f (b - 1) (l1.getD (b - 1) d1) (l2.getD (b - 1) d2)).2.1) a (b - 1))
          (a + 1) (b - 1)).2.1,
       (partPairGo f d1 d2
          (listSwap (l1.set (b - 1)
            (f (b - 1) (l1.getD (b - 1) d1) (l2.getD (b - 1) d2)).1) a (b - 1))
          (listSwap (l2.set (b - 1)
            (f (b - 1) (l1.getD (b - 1) d1) (l2.getD (b - 1) d2)).2.1) a (b - 1))
          (a + 1) (b - 1)).2.2.1,
       (b - 1, l1.getD (b - 1) d1, l2.getD (b - 1) d2) ::
        (partPairGo f d1 d2
          (listSwap (l1.set (b - 1)
            (f (b - 1) (l1.getD (b - 1) d1) (l2.getD (b - 1) d2)).1) a (b - 1))
          (listSwap (l2.set (b - 1)
            (f (b - 1) (l1.getD (b - 1) d1) (l2.getD (b - 1) d2)).2.1) a (b - 1))
          (a + 1) (b - 1)).2.2.2) := by
  rw [partPairBack, dif_pos h]
  simp only [ht, if_true]

lemma partPairBack_false {α β : Type} (f : ℕ → α → β → α × β × Bool) (d1 : α)
    (d2 : β) (l1 : List α) (l2 : List β) (a b : ℕ) (h : a + 1 < b)
    (ht : (f (b - 1) (l1.getD (b - 1) d1) (l2.getD (b - 1) d2)).2.2 = false) :
    partPairBack f d1 d2 l1 l2 a b =
      ((partPairBack f d1 d2
          (l1.set (b - 1) (f (b - 1) (l1.getD (b - 1) d1) (l2.getD (b - 1) d2)).1)
          (l2.set (b - 1) (f (b - 1) (l1.getD (b - 1) d1) (l2.getD (b - 1) d2)).2.1)
          a (b - 1)).1,
       (partPairBack f d1 d2
          (l1.set (b - 1) (f (b - 1) (l1.getD (b - 1) d1) (l2.getD (b - 1) d2)).1)
          (l2.set (b - 1) (f (b - 1) (l1.getD (b - 1) d1) (l2.getD (b - 1) d2)).2.1)
          a (b - 1)).2.1,
       (partPairBack f d1 d2
          (l1.set (b - 1) (f (b - 1) (l1.getD (b - 1) d1) (l2.getD (b - 1) d2)).1)
          (l2.set (b - 1) (f (b - 1) (l1.getD (b - 1) d1) (l2.getD (b - 1) d2)).2.1)
          a (b - 1)).2.2.1,
       (b - 1, l1.getD (b - 1) d1, l2.getD (b - 1) d2) ::
        (partPairBack f d1 d2
          (l1.set (b - 1) (f (b - 1) (l1.getD (b - 1) d1) (l2.getD (b - 1) d2)).1)
          (l2.set (b - 1) (f (b - 1) (l1.getD (b - 1) d1) (l2.getD (b - 1) d2)).2.1)
          a (b - 1)).2.2.2) := by
  rw [partPairBack, dif_pos h]
  simp only [ht, Bool.false_eq_true, if_false]

/-! ### Master lemmas for the `partition_pair` scans -/

/-- Every log entry of a pair scan records the tested slot index together
with the element pair that the two lists hold at that slot at the moment
of the test — which, because untested slots are never moved, are the
values the lists held at that slot when the scan over the window
started. -/
theorem partPairScan_log {α β : Type} (f : ℕ → α → β → α × β × Bool)
    (d1 : α) (d2 : β) :
    ∀ N : ℕ,
      (∀ (l1 : List α) (l2 : List β) (a b : ℕ), 2 * (b - a) + 1 ≤ N → a ≤ b →
        ∀ e ∈ (partPairGo f d1 d2 l1 l2 a b).2.2.2,
          a ≤ e.1 ∧ e.1 < b ∧ e.2.1 = l1.getD e.1 d1 ∧
            e.2.2 = l2.getD e.1 d2) ∧
      (∀ (l1 : List α) (l2 : List β) (a b : ℕ), 2 * (b - a) ≤ N → a < b →
        ∀ e ∈ (partPairBack f d1 d2 l1 l2 a b).2.2.2,
          a + 1 ≤ e.1 ∧ e.1 < b ∧ e.2.1 = l1.getD e.1 d1 ∧
            e.2.2 = l2.getD e.1 d2) := by
  intro N
  induction N with
  | zero =>
    constructor
    · intro l1 l2 a b hN
      exact absurd hN (by omega)
    · intro l1 l2 a b hN hab
      exact absurd hN (by omega)
  | succ N ih =>
    obtain ⟨ihGo, ihBack⟩ := ih
    constructor
    · intro l1 l2 a b hN hab e he
      by_cases hlt : a < b
      · by_cases ht : (f a (l1.getD a d1) (l2.getD a d2)).2.2 = true
        · rw [partPairGo_true f d1 d2 l1 l2 a b hlt ht] at he
          dsimp only at he
          rcases List.mem_cons.mp he with hh | hh
          · subst hh
            exact ⟨le_refl a, hlt, rfl, rfl⟩
          · obtain ⟨he1, he2, he3, he4⟩ := ihGo _ _ (a + 1) b (by omega)
              (by omega) e hh
            rw [getD_set_ne _ _ _ _ _ (by omega)] at he3
            rw [getD_set_ne _ _ _ _ _ (by omega)] at he4
            exact ⟨by omega, he2, he3, he4⟩
        · have htf : (f a (l1.getD a d1) (l2.getD a d2)).2.2 = false := by
            revert ht
            cases (f a (l1.getD a d1) (l2.getD a d2)).2.2 <;> simp
          rw [partPairGo_false f d1 d2 l1 l2 a b hlt htf] at he
          dsimp only at he
          rcases List.mem_cons.mp he with hh | hh
          · subst hh
            exact ⟨le_refl a, hlt, rfl, rfl⟩
          · obtain ⟨he1, he2, he3, he4⟩ := ihBack _ _ a b (by omega) hlt e hh
            rw [getD_set_ne _ _ _ _ _ (by omega)] at he3
            rw [getD_set_ne _ _ _ _ _ (by omega)] at he4
            exact ⟨by omega, he2, he3, he4⟩
      · rw [partPairGo_stop f d1 d2 l1 l2 a b hlt] at he
        exact absurd he (List.not_mem_nil e)
    · intro l1 l2 a b hN hab e he
      by_cases hlt : a + 1 < b
      · by_cases ht :
            (f (b - 1) (l1.getD (b - 1) d1) (l2.getD (b - 1) d2)).2.2 = true
        · rw [partPairBack_true f d1 d2 l1 l2 a b hlt ht] at he
          dsimp only at he
          rcases List.mem_cons.mp he with hh | hh
          · subst hh
            exact ⟨by omega, by omega, rfl, rfl⟩
          · obtain ⟨he1, he2, he3, he4⟩ := ihGo _ _ (a + 1) (b - 1) (by omega)
              (by omega) e hh
            rw [listSwap_getD_other _ _ _ _ _ (by omega) (by omega),
              getD_set_ne _ _ _ _ _ (by omega)] at he3
            rw [listSwap_getD_other _ _ _ _ _ (by omega) (by omega),
              getD_set_ne _ _ _ _ _ (by omega)] at he4
            exact ⟨he1, by omega, he3, he4⟩
        · have htf :
              (f (b - 1) (l1.getD (b - 1) d1) (l2.getD (b - 1) d2)).2.2 =
                false := by
            revert ht
            cases (f (b - 1) (l1.getD (b - 1) d1) (l2.getD (b - 1) d2)).2.2 <;>
              simp
          rw [partPairBack_false f d1 d2 l1 l2 a b hlt htf] at he
          dsimp only at he
          rcases List.mem_cons.mp he with hh | hh
          · subst hh
            exact ⟨by omega, by omega, rfl, rfl⟩
          · obtain ⟨he1, he2, he3, he4⟩ := ihBack _ _ a (b - 1) (by omega)
              (by omega) e hh
            rw [getD_set_ne _ _ _ _ _ (by omega)] at he3
            rw [getD_set_ne _ _ _ _ _ (by omega)] at he4
            exact ⟨he1, by omega, he3, he4⟩
      · rw [partPairBack_stop f d1 d2 l1 l2 a b hlt] at he
        exact absurd he (List.not_mem_nil e)

/-- With a value-preserving predicate, a pair scan changes the two lists
only by the one common sequence of swaps, each swap inside the scanned
window. -/
theorem partPairScan_swaps {α β : Type} (f : ℕ → α → β → α × β × Bool)
    (d1 : α) (d2 : β)
    (hf : ∀ i x y, (f i x y).1 = x ∧ (f i x y).2.1 = y) :
    ∀ N : ℕ,
      (∀ (l1 : List α) (l2 : List β) (a b : ℕ), 2 * (b - a) + 1 ≤ N → a ≤ b →
        ∃ sw : List (ℕ × ℕ),
          (∀ e ∈ sw, a ≤ e.1 ∧ e.1 < e.2 ∧ e.2 < b) ∧
          (partPairGo f d1 d2 l1 l2 a b).2.1 = applySwaps sw l1 ∧
          (partPairGo f d1 d2 l1 l2 a b).2.2.1 = applySwaps sw l2) ∧
      (∀ (l1 : List α) (l2 : List β) (a b : ℕ), 2 * (b - a) ≤ N → a < b →
        ∃ sw : List (ℕ × ℕ),
          (∀ e ∈ sw, a ≤ e.1 ∧ e.1 < e.2 ∧ e.2 < b) ∧
          (partPairBack f d1 d2 l1 l2 a b).2.1 = applySwaps sw l1 ∧
          (partPairBack f d1 d2 l1 l2 a b).2.2.1 = applySwaps sw l2) := by
  intro N
  induction N with
  | zero =>
    constructor
    · intro l1 l2 a b hN
      exact absurd hN (by omega)
    · intro l1 l2 a b hN hab
      exact absurd hN (by omega)
  | succ N ih =>
    obtain ⟨ihGo, ihBack⟩ := ih
    constructor
    · intro l1 l2 a b hN hab
      by_cases hlt : a < b
      · have hset1 : l1.set a (f a (l1.getD a d1) (l2.getD a d2)).1 = l1 := by
          rw [(hf a (l1.getD a d1) (l2.getD a d2)).1, set_getD_self]
        have hset2 : l2.set a (f a (l1.getD a d1) (l2.getD a d2)).2.1 = l2 := by
          rw [(hf a (l1.getD a d1) (l2.getD a d2)).2, set_getD_self]
        by_cases ht : (f a (l1.getD a d1) (l2.getD a d2)).2.2 = true
        · rw [partPairGo_true f d1 d2 l1 l2 a b hlt ht, hset1, hset2]
          dsimp only
          obtain ⟨sw, hsw, h1, h2⟩ := ihGo l1 l2 (a + 1) b (by omega) (by omega)
          refine ⟨sw, ?_, h1, h2⟩
          intro e he
          have := hsw e he
          exact ⟨by omega, this.2.1, this.2.2⟩
        · have htf : (f a (l1.getD a d1) (l2.getD a d2)).2.2 = false := by
            revert ht
            cases (f a (l1.getD a d1) (l2.getD a d2)).2.2 <;> simp
          rw [partPairGo_false f d1 d2 l1 l2 a b hlt htf, hset1, hset2]
          dsimp only
          exact ihBack l1 l2 a b (by omega) hlt
      · rw [partPairGo_stop f d1 d2 l1 l2 a b hlt]
        exact ⟨[], by simp, rfl, rfl⟩
    · intro l1 l2 a b hN hab
      by_cases hlt : a + 1 < b
      · have hset1 :
            l1.set (b - 1)
              (f (b - 1) (l1.getD (b - 1) d1) (l2.getD (b - 1) d2)).1 = l1 := by
          rw [(hf (b - 1) (l1.getD (b - 1) d1) (l2.getD (b - 1) d2)).1,
            set_getD_self]
        have hset2 :
            l2.set (b - 1)
              (f (b - 1) (l1.getD (b - 1) d1) (l2.getD (b - 1) d2)).2.1 =
              l2 := by
          rw [(hf (b - 1) (l1.getD (b - 1) d1) (l2.getD (b - 1) d2)).2,
            set_getD_self]
        by_cases ht :
            (f (b - 1) (l1.getD (b - 1) d1) (l2.getD (b - 1) d2)).2.2 = true
        · rw [partPairBack_true f d1 d2 l1 l2 a b hlt ht, hset1, hset2]
          dsimp only
          obtain ⟨sw, hsw, h1, h2⟩ := ihGo (listSwap l1 a (b - 1))
            (listSwap l2 a (b - 1)) (a + 1) (b - 1) (by omega) (by omega)
          refine ⟨(a, b - 1) :: sw, ?_, h1, h2⟩
          intro e he
          rcases List.mem_cons.mp he with hh | hh
          · subst hh
            exact ⟨le_refl a, by omega, by omega⟩
          · have := hsw e hh
            exact ⟨by omega, this.2.1, by omega⟩
        · have htf :
              (f (b - 1) (l1.getD (b - 1) d1) (l2.getD (b - 1) d2)).2.2 =
                false := by
            revert ht
            cases (f (b - 1) (l1.getD (b - 1) d1) (l2.getD (b - 1) d2)).2.2 <;>
              simp
          rw [partPairBack_false f d1 d2 l1 l2 a b hlt htf, hset1, hset2]
          dsimp only
          obtain ⟨sw, hsw, h1, h2⟩ := ihBack l1 l2 a (b - 1) (by omega)
            (by omega)
          refine ⟨sw, ?_, h1, h2⟩
          intro e he
          have := hsw e he
          exact ⟨this.1, this.2.1, by omega⟩
      · rw [partPairBack_stop f d1 d2 l1 l2 a b hlt]
        exact ⟨[], by simp, rfl, rfl⟩

/-! ### Swap lists as permutations -/

lemma applySwaps_length {γ : Type} :
    ∀ (sw : List (ℕ × ℕ)) (l : List γ),
      (applySwaps sw l).length = l.length := by
  intro sw
  induction sw with
  | nil => intro l; rfl
  | cons e s ih =>
    intro l
    rw [applySwaps, ih, listSwap_length]

lemma swapsEquiv_lt (n : ℕ) :
    ∀ (sw : List (ℕ × ℕ)), (∀ e ∈ sw, e.1 < n ∧ e.2 < n) →
      ∀ k, k < n → swapsEquiv sw k < n := by
  intro sw
  induction sw with
  | nil => intro _ k hk; exact hk
  | cons e s ih =>
    intro hv k hk
    have hs := ih (fun e' he' => hv e' (List.mem_cons_of_mem _ he')) k hk
    have he := hv e (List.mem_cons_self _ _)
    show Equiv.swap e.1 e.2 (swapsEquiv s k) < n
    rw [Equiv.swap_apply_def]
    split_ifs <;> omega

lemma applySwaps_getD {γ : Type} (d : γ) :
    ∀ (sw : List (ℕ × ℕ)) (l : List γ),
      (∀ e ∈ sw, e.1 < l.length ∧ e.2 < l.length) →
      ∀ k, (applySwaps sw l).getD k d = l.getD (swapsEquiv sw k) d := by
  intro sw
  induction sw with
  | nil => intro l _ k; rfl
  | cons e s ih =>
    intro l hv k
    have hval : ∀ e' ∈ s, e'.1 < (listSwap l e.1 e.2).length ∧
        e'.2 < (listSwap l e.1 e.2).length := by
      intro e' he'
      rw [listSwap_length]
      exact hv e' (List.mem_cons_of_mem _ he')
    have hrec := ih (listSwap l e.1 e.2) hval k
    have he := hv e (List.mem_cons_self _ _)
    have hstep : applySwaps (e :: s) l = applySwaps s (listSwap l e.1 e.2) :=
      rfl
    have happ : swapsEquiv (e :: s) k = Equiv.swap e.1 e.2 (swapsEquiv s k) :=
      rfl
    rw [hstep, hrec, happ]
    by_cases hm1 : swapsEquiv s k = e.1
    · rw [hm1, listSwap_getD_fst _ _ _ _ he.1 he.2, Equiv.swap_apply_left]
    · by_cases hm2 : swapsEquiv s k = e.2
      · rw [hm2, listSwap_getD_snd _ _ _ _ he.1 he.2, Equiv.swap_apply_right]
      · rw [listSwap_getD_other _ _ _ _ _ hm1 hm2,
          Equiv.swap_apply_of_ne_of_ne hm1 hm2]

/-! ## Claim theorems (first group) -/

/-- C7: `calc_traversal_code` is a deterministic encoding of BVH4 topology
and per-split axis choices: for axis values in {0,1,2}, distinct
(topology, axes) combinations get distinct codes, `Full` maps onto 0-26 as
top + 3*left + 9*right, `Left` onto 27-35, `Right` onto 36-44, `TopOnly`
onto 45-47, and every code is below 48. -/
theorem calc_traversal_code_spec (s1 s2 : SplitAxes)
    (h1 : s1.validAxes) (h2 : s2.validAxes) :
    (calc_traversal_code s1 = calc_traversal_code s2 → s1 = s2) ∧
    (∀ top left right, s1 = SplitAxes.Full top left right →
      calc_traversal_code s1 = top + (left * 3) + (right * 9) ∧
      calc_traversal_code s1 ≤ 26) ∧
    (∀ top left, s1 = SplitAxes.Left top left →
      27 ≤ calc_traversal_code s1 ∧ calc_traversal_code s1 ≤ 35) ∧
    (∀ top right, s1 = SplitAxes.Right top right →
      36 ≤ calc_traversal_code s1 ∧ calc_traversal_code s1 ≤ 44) ∧
    (∀ top, s1 = SplitAxes.TopOnly top →
      45 ≤ calc_traversal_code s1 ∧ calc_traversal_code s1 ≤ 47) ∧
    calc_traversal_code s1 < 48 := by
  cases s1 <;> cases s2 <;>
    simp_all only [SplitAxes.validAxes, calc_traversal_code] <;>
    constructor <;>
    try constructor
  all_goals
    first
      | (intro h; refine ⟨?_, ?_, ?_⟩ <;> omega)
      | (intro h; constructor <;> omega)
      | (refine ⟨?_, ?_, ?_, ?_, ?_⟩ <;> (intros <;> simp_all <;> omega))
      | (intros; simp_all; omega)
      | omega
      | (intros; omega)
      | simp_all

/-- C7 witness. -/
theorem calc_traversal_code_spec_witness :
    (SplitAxes.Full 2 1 0).validAxes ∧ (SplitAxes.TopOnly 2).validAxes ∧
    calc_traversal_code (SplitAxes.Full 2 1 0) < 48 :=
  ⟨by decide, by decide,
    (calc_traversal_code_spec (SplitAxes.Full 2 1 0) (SplitAxes.TopOnly 2)
      (by decide) (by decide)).2.2.2.2.2⟩

/-- C10 counterexample: the empty triangle list is a multiple of any
`time_samples ≥ 1`, yet the constructor does not return a mesh — the
empty index set fails the BVH builder's non-empty precondition, so the
claim's success clause is false at `triangles = []`, `time_samples = 1`. -/
theorem from_triangles_empty_fails :
    from_triangles 1 ([] : List ℕ) = none ∧
    ¬ ∃ idx, from_triangles 1 ([] : List ℕ) = some idx ∧ idx.length = 0 := by
  constructor
  · rfl
  · intro ⟨idx, hidx, _⟩
    cases hidx.symm.trans (rfl : from_triangles 1 ([] : List ℕ) = none)

/-- C10 (amended): `TriangleMesh::from_triangles` panics exactly when the
triangle count is not a multiple of `time_samples`; with
`time_samples ≥ 1`, a non-empty multiple yields an index array with
exactly `triangles.len() / time_samples` entries (one per multi-sample
triangle), while the empty triangle list fails the BVH builder's
non-empty-object-set precondition. -/
theorem from_triangles_spec {T : Type} (time_samples : ℕ) (triangles : List T) :
    (¬ time_samples ∣ triangles.length →
      from_triangles time_samples triangles = none) ∧
    (1 ≤ time_samples → time_samples ∣ triangles.length → triangles ≠ [] →
      ∃ idx, from_triangles time_samples triangles = some idx ∧
        idx.length = triangles.length / time_samples) ∧
    (triangles = [] → from_triangles time_samples triangles = none) := by
  refine ⟨?_, ?_, ?_⟩
  · intro hnd
    unfold from_triangles
    rcases Nat.eq_zero_or_pos time_samples with h0 | hpos
    · simp [h0]
    · have hmod : ¬ triangles.length % time_samples = 0 := fun hmod =>
        hnd (Nat.dvd_iff_mod_eq_zero.mpr hmod)
      simp [hpos.ne', hmod]
  · intro hpos hdvd hne
    have hts : time_samples ≠ 0 := by omega
    have hmod : triangles.length % time_samples = 0 :=
      Nat.dvd_iff_mod_eq_zero.mp hdvd
    have hlen : 0 < triangles.length := List.length_pos.mpr hne
    have hquot : 0 < triangles.length / time_samples :=
      Nat.div_pos (Nat.le_of_dvd hlen hdvd) (by omega)
    have hnonempty :
        (List.range (triangles.length / time_samples)).map
          (fun n => n * time_samples) ≠ [] := by
      simp [List.range_eq_nil]
      omega
    refine ⟨(List.range (triangles.length / time_samples)).map
        (fun n => n * time_samples), ?_, by simp⟩
    simp [from_triangles, hts, hmod, bvhFromObjectsCheck, hnonempty]
  · intro he
    subst he
    rcases Nat.eq_zero_or_pos time_samples with h0 | hpos
    · simp [from_triangles, h0]
    · simp [from_triangles, hpos.ne', bvhFromObjectsCheck]

/-- C10 witness: 4 triangles at 2 time samples yield 2 indices; 3
triangles at 2 time samples fail the assert; 0 triangles fail the BVH
precondition. -/
theorem from_triangles_spec_witness :
    (from_triangles 2 [(10 : ℕ), 11, 12] = none) ∧
    (∃ idx, from_triangles 2 [(10 : ℕ), 11, 12, 13] = some idx ∧
      idx.length = 2) ∧
    (from_triangles 2 ([] : List ℕ) = none) :=
  ⟨(from_triangles_spec 2 [10, 11, 12]).1 (by decide),
    (from_triangles_spec 2 [10, 11, 12, 13]).2.1 (by decide) (by decide)
      (by decide),
    (from_triangles_spec 2 ([] : List ℕ)).2.2 rfl⟩

/-- C9: within one `intersect_rays` call a ray's `max_t` never increases:
it is only (re)assigned when a non-occlusion ray receives a hit at
`t < max_t`, and an occlusion ray's `max_t` is never modified (the ray is
marked done instead). -/
theorem intersect_rays_max_t_mono (s : AccelRayM × SurfaceIsectM)
    (results : List (Option ℚ)) :
    (∀ pre suf, results = pre ++ suf →
      (intersectRaysRay s pre).1.max_t ≤ s.1.max_t) ∧
    (s.1.occlusion = true →
      (intersectRaysRay s results).1.max_t = s.1.max_t) ∧
    (∀ res, (triCallbackStep s res).1.max_t ≠ s.1.max_t →
      s.1.occlusion = false ∧
      ∃ t, res = some t ∧ t < s.1.max_t ∧ (triCallbackStep s res).1.max_t = t) := by
  have hstep : ∀ (u : AccelRayM × SurfaceIsectM) (res : Option ℚ),
      (triCallbackStep u res).1.max_t ≤ u.1.max_t ∧
      (triCallbackStep u res).1.occlusion = u.1.occlusion ∧
      (u.1.occlusion = true → (triCallbackStep u res).1.max_t = u.1.max_t) := by
    intro u res
    cases res with
    | none => exact ⟨le_refl _, rfl, fun _ => rfl⟩
    | some t =>
      by_cases hlt : t < u.1.max_t
      · by_cases hocc : u.1.occlusion
        · simp [triCallbackStep, hlt, hocc]
        · simp [triCallbackStep, hlt, hocc, le_of_lt hlt]
      · simp [triCallbackStep, hlt]
  have hfold : ∀ (rs : List (Option ℚ)) (u : AccelRayM × SurfaceIsectM),
      (intersectRaysRay u rs).1.max_t ≤ u.1.max_t ∧
      (u.1.occlusion = true → (intersectRaysRay u rs).1.max_t = u.1.max_t) := by
    intro rs
    induction rs with
    | nil => intro u; exact ⟨le_refl _, fun _ => rfl⟩
    | cons r rs ih =>
      intro u
      have h1 := hstep u r
      have h2 := ih (triCallbackStep u r)
      constructor
      · exact le_trans h2.1 h1.1
      · intro hocc
        have hocc' : (triCallbackStep u r).1.occlusion = true := by
          rw [h1.2.1]; exact hocc
        calc (intersectRaysRay (triCallbackStep u r) rs).1.max_t
            = (triCallbackStep u r).1.max_t := h2.2 hocc'
          _ = u.1.max_t := h1.2.2 hocc
  refine ⟨fun pre _ _ => (hfold pre s).1, (hfold results s).2, ?_⟩
  intro res hne
  cases res with
  | none => exact absurd rfl hne
  | some t =>
    by_cases hlt : t < s.1.max_t
    · by_cases hocc : s.1.occlusion
      · exact absurd (by simp [triCallbackStep, hlt, hocc]) hne
      · refine ⟨by simpa using hocc, t, rfl, hlt, by simp [triCallbackStep, hlt, hocc]⟩
    · exact absurd (by simp [triCallbackStep, hlt]) hne

/-- C9 witness: an occlusion ray keeps `max_t = 5` across a closer hit;
the prefix bound degenerates to reflexivity on the full list. -/
theorem intersect_rays_max_t_mono_witness :
    (intersectRaysRay ({ max_t := 5, occlusion := true, done := false },
        SurfaceIsectM.Miss) [some 3]).1.max_t = 5 ∧
    (intersectRaysRay ({ max_t := 5, occlusion := true, done := false },
        SurfaceIsectM.Miss) []).1.max_t ≤ 5 :=
  ⟨(intersect_rays_max_t_mono
      ({ max_t := 5, occlusion := true, done := false }, SurfaceIsectM.Miss)
      [some 3]).2.1 rfl,
    (intersect_rays_max_t_mono
      ({ max_t := 5, occlusion := true, done := false }, SurfaceIsectM.Miss)
      [some 3]).1 [] [some 3] rfl⟩

lemma list_sum_all_zero (ws : List ℚ) (hnn : ∀ w ∈ ws, 0 ≤ w)
    (h0 : ws.sum = 0) : ∀ w ∈ ws, w = 0 := by
  induction ws with
  | nil => simp
  | cons w rest ih =>
    have hw : 0 ≤ w := hnn w (List.mem_cons_self w rest)
    have hrest : ∀ x ∈ rest, 0 ≤ x := fun x hx => hnn x (List.mem_cons_of_mem _ hx)
    have hsum : 0 ≤ rest.sum := List.sum_nonneg hrest
    rw [List.sum_cons] at h0
    have hw0 : w = 0 := by linarith
    have hr0 : rest.sum = 0 := by linarith
    intro x hx
    rcases List.mem_cons.mp hx with h | h
    · rw [h, hw0]
    · exact ih hrest hr0 x h

lemma lightArraySelectGo_isSome (total : ℚ) (ws : List ℚ) :
    ∀ (i : ℕ) (x : ℚ), (∀ w ∈ ws, 0 ≤ w) → 0 ≤ x → x < ws.sum →
      ∃ s, lightArraySelectGo total ws i x = some s := by
  induction ws with
  | nil => intro i x _ hx hlt; rw [List.sum_nil] at hlt; linarith
  | cons w rest ih =>
    intro i x hnn hx hlt
    by_cases hxw : x < w
    · exact ⟨(i, w / total, x / w), by simp [lightArraySelectGo, hxw]⟩
    · have hwx : w ≤ x := not_lt.mp hxw
      rw [List.sum_cons] at hlt
      obtain ⟨s, hs⟩ := ih (i + 1) (x - w)
        (fun w' hw' => hnn w' (List.mem_cons_of_mem _ hw'))
        (by linarith) (by linarith)
      exact ⟨s, by simp [lightArraySelectGo, hxw, hs]⟩

lemma LightTreeM.energy_nonneg :
    ∀ t : LightTreeM, t.nonnegWeights → 0 ≤ t.energy := by
  intro t
  induction t with
  | leaf w => exact fun h => h
  | node l r ihl ihr =>
    intro h
    exact add_nonneg (ihl h.1) (ihr h.2)

lemma LightTreeM.energy_eq_zero_iff (t : LightTreeM) (hn : t.nonnegWeights) :
    t.energy = 0 ↔ t.allZero := by
  induction t with
  | leaf w => exact Iff.rfl
  | node l r ihl ihr =>
    have hl := LightTreeM.energy_nonneg l hn.1
    have hr := LightTreeM.energy_nonneg r hn.2
    constructor
    · intro h0
      rw [LightTreeM.energy] at h0
      exact ⟨(ihl hn.1).mp (by linarith), (ihr hn.2).mp (by linarith)⟩
    · intro haz
      rw [LightTreeM.energy, (ihl hn.1).mpr haz.1, (ihr hn.2).mpr haz.2,
        add_zero]

lemma lightTreeSelectGo_none_of_energy_zero (t : LightTreeM) (n : ℚ)
    (h0 : t.energy = 0) : lightTreeSelectGo t n = none := by
  cases t with
  | leaf w => simp [lightTreeSelectGo, h0, LightTreeM.energy] at h0 ⊢; exact h0
  | node l r =>
    rw [LightTreeM.energy] at h0
    simp [lightTreeSelectGo, h0]

lemma lightTreeSelectGo_isSome (t : LightTreeM) :
    ∀ n : ℚ, t.nonnegWeights → 0 < t.energy → 0 ≤ n → n < 1 →
      ∃ s, lightTreeSelectGo t n = some s := by
  induction t with
  | leaf w =>
    intro n _ hpos _ _
    have : w ≠ 0 := by
      rw [LightTreeM.energy] at hpos; linarith
    exact ⟨(0, 1, n), by simp [lightTreeSelectGo, this]⟩
  | node l r ihl ihr =>
    intro n hnn hpos hn0 hn1
    rw [LightTreeM.energy] at hpos
    have hlnn := LightTreeM.energy_nonneg l hnn.1
    have hrnn := LightTreeM.energy_nonneg r hnn.2
    have hne : ¬ (l.energy + r.energy = 0) := by linarith
    by_cases hnp : n < l.energy / (l.energy + r.energy)
    · have hp0 : 0 < l.energy / (l.energy + r.energy) := lt_of_le_of_lt hn0 hnp
      have hl0 : 0 < l.energy := by
        by_contra hc
        have : l.energy = 0 := le_antisymm (not_lt.mp hc) hlnn
        rw [this, zero_div] at hp0
        linarith
      obtain ⟨s, hs⟩ := ihl (n / (l.energy / (l.energy + r.energy))) hnn.1 hl0
        (div_nonneg hn0 (le_of_lt hp0)) ((div_lt_one hp0).mpr hnp)
      exact ⟨(s.1, l.energy / (l.energy + r.energy) * s.2.1, s.2.2),
        by simp [lightTreeSelectGo, hne, hnp, hs]⟩
    · have hp1 : l.energy / (l.energy + r.energy) < 1 := by
        rcases lt_or_eq_of_le hrnn with hr0 | hr0
        · exact (div_lt_one (by linarith)).mpr (by linarith)
        · exfalso
          rw [← hr0, add_zero, div_self (by linarith : l.energy ≠ 0)] at hnp
          exact hnp hn1
      have hnp' : l.energy / (l.energy + r.energy) ≤ n := not_lt.mp hnp
      have hr0 : 0 < r.energy := by
        by_contra hc
        have h0 : r.energy = 0 := le_antisymm (not_lt.mp hc) hrnn
        rw [h0, add_zero, div_self (by linarith : l.energy ≠ 0)] at hp1
        linarith
      obtain ⟨s, hs⟩ := ihr
        ((n - l.energy / (l.energy + r.energy)) /
          (1 - l.energy / (l.energy + r.energy))) hnn.2 hr0
        (div_nonneg (by linarith) (by linarith))
        ((div_lt_one (by linarith)).mpr (by linarith))
      exact ⟨(l.leafCount + s.1,
          (1 - l.energy / (l.energy + r.energy)) * s.2.1, s.2.2),
        by simp [lightTreeSelectGo, hne, hnp, hs]⟩

/-- C5: for both `LightAccel` implementations, `select` returns `None`
exactly when the structure holds zero lights or every importance weight
is zero; an empty light set yields `None` for every `n` in [0,1) and
`approximate_energy() = 0`. -/
theorem lightAccel_select_none_iff :
    (∀ (ws : List ℚ) (n : ℚ), (∀ w ∈ ws, 0 ≤ w) → 0 ≤ n → n < 1 →
      (lightArraySelect ws n = none ↔ ws = [] ∨ ∀ w ∈ ws, w = 0)) ∧
    (∀ (ot : Option LightTreeM) (n : ℚ),
      (∀ t, ot = some t → t.nonnegWeights) → 0 ≤ n → n < 1 →
      (lightTreeSelect ot n = none ↔
        ot = none ∨ ∃ t, ot = some t ∧ t.allZero)) ∧
    lightArrayApproximateEnergy [] = 0 ∧
    lightTreeApproximateEnergy none = 0 := by
  refine ⟨?_, ?_, rfl, rfl⟩
  · intro ws n hnn hn0 hn1
    constructor
    · intro hnone
      by_cases hws : ws = []
      · exact Or.inl hws
      · right
        by_contra haz
        have hsum0 : ws.sum ≠ 0 := fun h0 =>
          haz (list_sum_all_zero ws hnn h0)
        have hpos : 0 < ws.sum :=
          lt_of_le_of_ne (List.sum_nonneg hnn) (Ne.symm hsum0)
        obtain ⟨s, hs⟩ := lightArraySelectGo_isSome ws.sum ws 0 (n * ws.sum)
          hnn (mul_nonneg hn0 (le_of_lt hpos)) (by nlinarith)
        rw [lightArraySelect, if_neg hsum0, hs] at hnone
        cases hnone
    · intro h
      rcases h with h | h
      · subst h; simp [lightArraySelect]
      · have : ws.sum = 0 := List.sum_eq_zero h
        simp [lightArraySelect, this]
  · intro ot n hnn hn0 hn1
    cases ot with
    | none => simp [lightTreeSelect]
    | some t =>
      simp only [lightTreeSelect]
      constructor
      · intro hnone
        right
        refine ⟨t, rfl, ?_⟩
        by_contra haz
        have hne : t.energy ≠ 0 := fun h0 =>
          haz ((LightTreeM.energy_eq_zero_iff t (hnn t rfl)).mp h0)
        have hpos : 0 < t.energy :=
          lt_of_le_of_ne (LightTreeM.energy_nonneg t (hnn t rfl)) (Ne.symm hne)
        obtain ⟨s, hs⟩ := lightTreeSelectGo_isSome t n (hnn t rfl) hpos hn0 hn1
        rw [hs] at hnone
        cases hnone
      · intro h
        rcases h with h | ⟨t', ht', haz⟩
        · exact absurd h (by simp)
        · have heq : t' = t := by injection ht' with h; exact h.symm
          subst heq
          exact lightTreeSelectGo_none_of_energy_zero _ n
            ((LightTreeM.energy_eq_zero_iff _ (hnn _ rfl)).mpr haz)

/-- C5 witness: the empty light set returns `None` at `n = 1/2` in both
implementations. -/
theorem lightAccel_select_none_iff_witness :
    lightArraySelect [] (1 / 2) = none ∧ lightTreeSelect none (1 / 2) = none :=
  ⟨(lightAccel_select_none_iff.1 [] (1 / 2) (by simp) (by norm_num)
      (by norm_num)).mpr (Or.inl rfl),
    (lightAccel_select_none_iff.2.1 none (1 / 2) (by simp) (by norm_num)
      (by norm_num)).mpr (Or.inl rfl)⟩

/-- C1: for every sequence and predicate, `partition` returns an index
`i ≤ length` such that, after the call, every element before `i`
satisfies the predicate and every element at or after `i` does not; in
particular `i = 0` for the empty sequence. -/
theorem partition_correct {α : Type} (p : α → Bool) (d : α) (l : List α) :
    (partition (fun x => (x, p x)) d l).1 ≤ l.length ∧
    (partition (fun x => (x, p x)) d l).2.1.length = l.length ∧
    (∀ k, k < (partition (fun x => (x, p x)) d l).1 →
      p ((partition (fun x => (x, p x)) d l).2.1.getD k d) = true) ∧
    (∀ k, (partition (fun x => (x, p x)) d l).1 ≤ k → k < l.length →
      p ((partition (fun x => (x, p x)) d l).2.1.getD k d) = false) ∧
    (l = [] → (partition (fun x => (x, p x)) d l).1 = 0) := by
  obtain ⟨⟨h1a, h1b⟩, h2, h3, h4, h5, h6⟩ :=
    (partScan_spec (fun x => (x, p x)) d (2 * l.length + 1)).1 l 0 l.length
      (by omega) (by omega) (le_refl _)
  unfold partition
  refine ⟨h1b, h2, ?_, ?_, ?_⟩
  · intro k hk
    obtain ⟨j, hj1, hj2, hj3, hj4⟩ := h4 k (by omega) hk
    rw [hj3]
    exact hj4
  · intro k hk1 hk2
    obtain ⟨j, hj1, hj2, hj3, hj4⟩ := h5 k hk1 hk2
    rw [hj3]
    exact hj4
  · intro hl
    subst hl
    exact Nat.le_zero.mp h1b

/-- C1 witness: `[1, 2]` with the evenness predicate splits at 1 with the
even element first; the empty list splits at 0. -/
theorem partition_correct_witness :
    decide (((partition (fun x : ℕ => (x, decide (x % 2 = 0))) 0
        [1, 2]).2.1.getD 0 0) % 2 = 0) = true ∧
    decide (((partition (fun x : ℕ => (x, decide (x % 2 = 0))) 0
        [1, 2]).2.1.getD 1 0) % 2 = 0) = false ∧
    (partition (fun x : ℕ => (x, decide (x % 2 = 0))) 0 ([] : List ℕ)).1 = 0 :=
  ⟨(partition_correct (fun x : ℕ => decide (x % 2 = 0)) 0 [1, 2]).2.2.1 0
      (by simp [partition, partGo, partBack, listSwap]),
    (partition_correct (fun x : ℕ => decide (x % 2 = 0)) 0 [1, 2]).2.2.2.1 1
      (by simp [partition, partGo, partBack, listSwap]) (by decide),
    (partition_correct (fun x : ℕ => decide (x % 2 = 0)) 0 []).2.2.2.2 rfl⟩

/-- C2: `partition` hands the predicate exactly the original elements,
each exactly once — the log of predicate arguments (in call order) is a
permutation of the input sequence, for every (possibly element-mutating)
predicate. -/
theorem partition_pred_once {α : Type} (f : α → α × Bool) (d : α)
    (l : List α) : (partition f d l).2.2.Perm l := by
  have h := ((partScan_spec f d (2 * l.length + 1)).1 l 0 l.length (by omega)
    (by omega) (le_refl _)).2.2.2.2.2
  rw [regionMap_full] at h
  unfold partition
  exact h

/-- C3: with equal-length inputs and a (pure) predicate,
`partition_pair` applies one common permutation to both slices: there is
a bijection `π` of the index range with `A'[j] = A[π j]` and
`B'[j] = B[π j]` for every `j`, so the pairing of `A[i]` with `B[i]` is
preserved. -/
theorem partition_pair_lockstep {α β : Type} (p : ℕ → α → β → Bool)
    (d1 : α) (d2 : β) (l1 : List α) (l2 : List β)
    (h : l1.length = l2.length) :
    ∃ (r : ℕ × List α × List β × List (ℕ × α × β))
      (σ : Fin l1.length → Fin l1.length),
      partition_pair (fun i x y => (x, y, p i x y)) d1 d2 l1 l2 = some r ∧
      Function.Bijective σ ∧
      r.2.1.length = l1.length ∧ r.2.2.1.length = l2.length ∧
      (∀ k (hk : k < l1.length),
        r.2.1.getD k d1 = l1.getD (σ ⟨k, hk⟩).val d1 ∧
        r.2.2.1.getD k d2 = l2.getD (σ ⟨k, hk⟩).val d2) := by
  have hf : ∀ i (x : α) (y : β),
      ((fun i x y => (x, y, p i x y)) i x y).1 = x ∧
      ((fun i x y => (x, y, p i x y)) i x y).2.1 = y := fun _ _ _ => ⟨rfl, rfl⟩
  obtain ⟨sw, hsw, h1, h2⟩ :=
    (partPairScan_swaps (fun i x y => (x, y, p i x y)) d1 d2 hf
      (2 * l1.length + 1)).1 l1 l2 0 l1.length (by omega) (by omega)
  have hbound : ∀ e ∈ sw, e.1 < l1.length ∧ e.2 < l1.length := by
    intro e he
    have := hsw e he
    omega
  have hlt : ∀ k, k < l1.length → swapsEquiv sw k < l1.length :=
    swapsEquiv_lt l1.length sw hbound
  refine ⟨partPairGo (fun i x y => (x, y, p i x y)) d1 d2 l1 l2 0 l1.length,
    fun j => ⟨swapsEquiv sw j.val, hlt j.val j.isLt⟩,
    by rw [partition_pair, if_pos h], ?_, ?_, ?_, ?_⟩
  · constructor
    · intro j j' hjj
      have : swapsEquiv sw j.val = swapsEquiv sw j'.val := by
        simpa using congrArg Fin.val hjj
      exact Fin.ext ((swapsEquiv sw).injective this)
    · exact Finite.injective_iff_surjective.mp (fun j j' hjj =>
        Fin.ext ((swapsEquiv sw).injective (by simpa using congrArg Fin.val hjj)))
  · rw [h1, applySwaps_length]
  · rw [h2, applySwaps_length]
  · intro k hk
    constructor
    · rw [h1, applySwaps_getD d1 sw l1 hbound k]
    · rw [h2, applySwaps_getD d2 sw l2 (by rw [← h]; exact hbound) k]

/-- C3 witness: concrete equal-length slices with an evenness test. -/
theorem partition_pair_lockstep_witness :
    ∃ (r : ℕ × List ℕ × List ℕ × List (ℕ × ℕ × ℕ))
      (σ : Fin (2 : ℕ) → Fin (2 : ℕ)),
      partition_pair
        (fun i x y => (x, y, (fun (_ : ℕ) (u : ℕ) (_ : ℕ) =>
          decide (u % 2 = 0)) i x y)) 0 0 [1, 2] [5, 6] = some r ∧
      Function.Bijective σ ∧
      r.2.1.length = 2 ∧ r.2.2.1.length = 2 ∧
      (∀ k (hk : k < 2),
        r.2.1.getD k 0 = List.getD [1, 2] (σ ⟨k, hk⟩).val 0 ∧
        r.2.2.1.getD k 0 = List.getD [5, 6] (σ ⟨k, hk⟩).val 0) :=
  partition_pair_lockstep (fun _ u _ => decide (u % 2 = 0)) 0 0 [1, 2] [5, 6]
    rfl

/-- C4: every predicate invocation in `partition_pair` receives the
current physical slot of the element pair being tested: each log entry
`(i, x, y)` has `i` inside the index range and `(x, y)` equal to the
pair the slices hold at slot `i` — untested slots are never moved, so
these are the original `A[i]`, `B[i]`. -/
theorem partition_pair_index_is_slot {α β : Type}
    (f : ℕ → α → β → α × β × Bool) (d1 : α) (d2 : β)
    (l1 : List α) (l2 : List β) (h : l1.length = l2.length) :
    ∃ r, partition_pair f d1 d2 l1 l2 = some r ∧
      ∀ e ∈ r.2.2.2, e.1 < l1.length ∧
        e.2.1 = l1.getD e.1 d1 ∧ e.2.2 = l2.getD e.1 d2 := by
  refine ⟨partPairGo f d1 d2 l1 l2 0 l1.length,
    by rw [partition_pair, if_pos h], ?_⟩
  intro e he
  have := (partPairScan_log f d1 d2 (2 * l1.length + 1)).1 l1 l2 0 l1.length
    (by omega) (by omega) e he
  exact ⟨this.2.1, this.2.2.1, this.2.2.2⟩

/-- C4 witness: concrete equal-length slices with a mutating predicate. -/
theorem partition_pair_index_is_slot_witness :
    ∃ r, partition_pair
        (fun i x y => (x + i, y + 1, decide (x % 2 = 0))) 0 0
        [1, 2] [5, 6] = some r ∧
      ∀ e ∈ r.2.2.2, e.1 < 2 ∧
        e.2.1 = List.getD [1, 2] e.1 0 ∧ e.2.2 = List.getD [5, 6] e.1 0 :=
  partition_pair_index_is_slot (fun i x y => (x + i, y + 1, decide (x % 2 = 0)))
    0 0 [1, 2] [5, 6] rfl

/-- C8: `partition_pair` fails its length assert exactly when the two
slices have different lengths — `none` is returned before any element is
tested or either slice is modified; with equal lengths the check never
fires and a result is produced. -/
theorem partition_pair_length_assert {α β : Type}
    (f : ℕ → α → β → α × β × Bool) (d1 : α) (d2 : β)
    (l1 : List α) (l2 : List β) :
    partition_pair f d1 d2 l1 l2 = none ↔ l1.length ≠ l2.length := by
  unfold partition_pair
  by_cases h : l1.length = l2.length <;> simp [h]

/-- C6 (code side): `EmitClosure::estimate_eval_over_solid_angle` never
returns normally — its body is `unimplemented!()`, so it panics for every
input, contradicting the non-negative-estimate contract. -/
theorem emit_estimate_panics (inc out nor : Vec3M) (cos_theta : ℚ) :
    emitEstimateEvalOverSolidAngle inc out nor cos_theta =
      Except.error "not implemented" := by
  rfl

end Psychopath
